import Mathlib

/-!
# Verification of the ubiquiti-store-scraper-tool

A shallow embedding in Lean 4 of the pure logic of the scraper:

* `src/utils.js` — `determineCategory`, `extractLinks` (with a model of
  WHATWG URL resolution for hierarchical http(s) URLs, standing in for
  `new URL(url, base).href`);
* `src/product-parser.js` — the `ProductParser` selector cascades, over a
  document-tree model of the markup (the tree a cheerio `load` produces);
* `src/crawler.js` — the phase-1 crawl loop and its link filter, with page
  fetching abstracted as an oracle `String → Option (List String)` giving
  the links extracted from a fetched page (`none` = fetch failure, which
  the crawler catches and logs).

JavaScript strings are modelled as Lean `String`/`List Char`; JS objects
used as string-keyed dictionaries are modelled as association lists with
in-place update; JS `Set` is modelled as a duplicate-free list preserving
insertion order.  Case conversion and whitespace trimming are modelled on
the ASCII range, which is the range the scraper's data exercises.
All string primitives are re-implemented structurally over `List Char`
so that every definition evaluates by kernel reduction.
-/

/-! ## String primitives (structural, kernel-reducible) -/

/-- Whether `as` is a prefix of `bs` (structural Bool version). -/
def isPrefixOfL : List Char → List Char → Bool
  | [], _ => true
  | _ :: _, [] => false
  | a :: as, b :: bs => a = b && isPrefixOfL as bs

/-- Whether `needle` occurs as a contiguous run inside `hay`. -/
def isInfixL : List Char → List Char → Bool
  | n, [] => n.isEmpty
  | n, c :: cs => isPrefixOfL n (c :: cs) || isInfixL n cs

/-- JS `haystack.includes(needle)` (substring containment). -/
def containsStr (haystack needle : String) : Bool :=
  isInfixL needle.toList haystack.toList

/-- JS `s.startsWith(p)`. -/
def startsWithStr (s p : String) : Bool :=
  isPrefixOfL p.toList s.toList

/-- JS `s.endsWith(p)`. -/
def endsWithStr (s p : String) : Bool :=
  isPrefixOfL p.toList.reverse s.toList.reverse

/-- JS `s.toLowerCase()` (ASCII range). -/
def lowerStr (s : String) : String :=
  String.mk (s.toList.map Char.toLower)

/-- JS `s.trim()` (ASCII whitespace). -/
def jsTrim (s : String) : String :=
  String.mk (((s.toList.dropWhile Char.isWhitespace).reverse.dropWhile Char.isWhitespace).reverse)

/-- Split a character list on a separator character; JS `s.split(sep)`
semantics: `""` splits to `[""]`, adjacent separators produce empty parts. -/
def splitOnChar (sep : Char) : List Char → List (List Char)
  | [] => [[]]
  | c :: cs =>
    let rest := splitOnChar sep cs
    if c = sep then [] :: rest
    else
      match rest with
      | r :: rs => (c :: r) :: rs
      | [] => [[c]]

/-- JS `s.split(sep)` for a one-character separator. -/
def splitStr (s : String) (sep : Char) : List String :=
  (splitOnChar sep s.toList).map String.mk

/-- JS `Array.prototype.join(sep)`. -/
def joinWith (sep : String) : List String → String
  | [] => ""
  | [x] => x
  | x :: xs => x ++ sep ++ joinWith sep xs

/-- JS `Array.prototype.indexOf` for string lists, returning the list
length when the element is absent (the JS `-1` case is recovered by the
callers' bound checks). -/
def indexOfStr (a : String) : List String → Nat
  | [] => 0
  | b :: bs => if b = a then 0 else indexOfStr a bs + 1

/-- List membership as a Bool (structural, kernel-reducible). -/
def memStr (a : String) : List String → Bool
  | [] => false
  | b :: bs => (b = a) || memStr a bs

/-- JS `[...new Set(l)]`: remove duplicates keeping the first occurrence
of each element, preserving order (`seen` accumulates the elements
already emitted). -/
def dedupFirstAux (seen : List String) : List String → List String
  | [] => []
  | x :: xs =>
    if memStr x seen then dedupFirstAux seen xs
    else x :: dedupFirstAux (x :: seen) xs

/-- JS `[...new Set(l)]`. -/
def dedupFirst (l : List String) : List String :=
  dedupFirstAux [] l

/-! ## utils.js: determineCategory -/

/-- JS `word.charAt(0).toUpperCase() + word.slice(1)` (empty word stays empty). -/
def capitalizeWord (w : String) : String :=
  match w.toList with
  | [] => ""
  | c :: rest => String.mk (c.toUpper :: rest)

/-- The title-casing applied to a `collections` slug in `determineCategory`:
split on `-`, capitalize the first letter of each word, join with spaces. -/
def titleCaseSlug (slug : String) : String :=
  joinWith " " ((splitStr slug '-').map capitalizeWord)

/-- The category-name fallback loop of `determineCategory`: the first
category in list order that is a case-insensitive substring of the product
name, else the literal `"Other"`. -/
def categoryByName (productName : String) (categories : List String) : String :=
  match categories.find? (fun c => containsStr (lowerStr productName) (lowerStr c)) with
  | some c => c
  | none => "Other"

/-- The `utils.js` function `determineCategory(productName, url, categories)`:
split the URL on `/`; take the first index of a `collections` part
(`indexOf`); if that index exists and has a following part which is
non-empty, return the following part title-cased; otherwise fall through
to the category-name scan. -/
def determineCategory (productName url : String) (categories : List String) : String :=
  let urlParts := splitStr url '/'
  let collectionIndex := indexOfStr "collections" urlParts
  if collectionIndex + 1 < urlParts.length then
    let urlCategory := urlParts.getD (collectionIndex + 1) ""
    if urlCategory ≠ "" then titleCaseSlug urlCategory
    else categoryByName productName categories
  else categoryByName productName categories

/-- Reference classifier following the amended claim for C2: if the part
after the first `collections` part of the slash-split URL exists and is
non-empty, return it title-cased regardless of the product name; otherwise
return the first known category that is a case-insensitive substring of
the product name; otherwise `"Other"`. -/
def categoryRefAmended (productName url : String) (categories : List String) : String :=
  match (splitStr url '/').drop (indexOfStr "collections" (splitStr url '/')) with
  | _ :: seg :: _ =>
    if seg = "" then categoryByName productName categories else titleCaseSlug seg
  | _ => categoryByName productName categories

/-- The adjacent-pair condition of claim C2 as written: the slash-split
URL contains a `collections` part immediately followed by a non-empty
part (anywhere, not only at the first `collections` occurrence). -/
def hasCollectionsPair (url : String) : Prop :=
  ∃ seg, ("collections", seg) ∈ (splitStr url '/').zip (splitStr url '/').tail ∧ seg ≠ ""

/-- Claim C2 exactly as stated: whenever some `collections` part is
followed by a non-empty part, the classifier returns that part
title-cased; otherwise it returns the name-scan result. -/
def claimC2 : Prop :=
  ∀ productName url categories,
    (hasCollectionsPair url →
      ∃ seg, ("collections", seg) ∈ (splitStr url '/').zip (splitStr url '/').tail ∧
        seg ≠ "" ∧ determineCategory productName url categories = titleCaseSlug seg) ∧
    (¬ hasCollectionsPair url →
      determineCategory productName url categories = categoryByName productName categories)

/-! ## utils.js: extractLinks and a model of WHATWG URL resolution

`extractLinks` calls `new URL(url, baseUrl).href`.  The model below
implements WHATWG URL resolution for hierarchical http(s)-style URLs:
scheme/host/path/query/fragment splitting, relative-reference merging,
and dot-segment removal.  Percent-encoding normalization, IDN, ports,
credentials and non-hierarchical schemes (`mailto:` …) are outside the
modelled subset; the scraper resolves only same-site http(s) references. -/

/-- Components of a parsed absolute hierarchical URL. -/
structure UrlParts where
  scheme : String
  host : String
  path : String
  query : Option String
  fragment : Option String
deriving DecidableEq, Repr

/-- Split at the first occurrence of `sep`: the part before it, and
(`some`) the part after it when it occurs. -/
def splitFirstL (sep : Char) : List Char → List Char × Option (List Char)
  | [] => ([], none)
  | c :: cs =>
    if c = sep then ([], some cs)
    else
      let (pre, rest) := splitFirstL sep cs
      (c :: pre, rest)

/-- A character allowed in a URL scheme. -/
def schemeChar (c : Char) : Bool :=
  c.isAlphanum || c = '+' || c = '-' || c = '.'

/-- Split `scheme://rest` at the first colon, requiring `//` after it. -/
def splitSchemeL : List Char → Option (List Char × List Char)
  | [] => none
  | c :: cs =>
    if c = ':' then
      match cs with
      | '/' :: '/' :: r => some ([], r)
      | _ => none
    else
      match splitSchemeL cs with
      | some (sch, r) => some (c :: sch, r)
      | none => none

/-- The reference begins with a valid `scheme://`. -/
def hasUrlScheme (cs : List Char) : Bool :=
  match splitSchemeL cs with
  | some (sch, _) => ¬ sch.isEmpty && sch.all schemeChar
  | none => false

/-- WHATWG path shortening on the segments after the leading slash:
`.` segments are skipped, `..` pops, and a trailing `.`/`..` leaves a
trailing empty segment (a trailing slash). -/
def shortenSegs : List String → List String → List String
  | acc, [] => acc.reverse
  | acc, [s] =>
    if s = "." then ("" :: acc).reverse
    else if s = ".." then ("" :: acc.drop 1).reverse
    else (s :: acc).reverse
  | acc, s :: rest =>
    if s = "." then shortenSegs acc rest
    else if s = ".." then shortenSegs (acc.drop 1) rest
    else shortenSegs (s :: acc) rest

/-- Remove `.`/`..` segments from an absolute path (leading `/`). -/
def removeDotSegments (p : String) : String :=
  "/" ++ joinWith "/" (shortenSegs [] ((splitStr p '/').drop 1))

/-- RFC 3986 path merge: the base path up to and including its last
slash, followed by the relative reference path. -/
def mergePaths (basePath refPath : String) : String :=
  String.mk ((basePath.toList.reverse.dropWhile (fun c => c ≠ '/')).reverse) ++ refPath

/-- Parse an absolute hierarchical URL into its components, lowercasing
scheme and host and normalizing dot segments, or fail (`none`) the way
`new URL` throws on input it cannot parse. -/
def parseAbsUrl (s : String) : Option UrlParts :=
  let (beforeFrag, frag) := splitFirstL '#' s.toList
  let (beforeQ, query) := splitFirstL '?' beforeFrag
  match splitSchemeL beforeQ with
  | none => none
  | some (sch, rest) =>
    if sch.isEmpty || ¬ sch.all schemeChar then none
    else
      let host := rest.takeWhile (fun c => c ≠ '/')
      let pathCs := rest.dropWhile (fun c => c ≠ '/')
      if host.isEmpty then none
      else
        some
          { scheme := lowerStr (String.mk sch)
            host := lowerStr (String.mk host)
            path := removeDotSegments (if pathCs.isEmpty then "/" else String.mk pathCs)
            query := query.map String.mk
            fragment := frag.map String.mk }

/-- Serialization `new URL(u).href`: the components joined back into a string. -/
def serializeUrl (u : UrlParts) : String :=
  u.scheme ++ "://" ++ u.host ++ u.path ++
    (match u.query with
     | some q => "?" ++ q
     | none => "") ++
    (match u.fragment with
     | some f => "#" ++ f
     | none => "")

/-- Resolution `new URL(ref, base).href` for the modelled subset: absolute
references are reparsed; protocol-relative references take the base
scheme; otherwise path/query/fragment are resolved against the base per
WHATWG (empty path keeps the base path and, absent a new query, the base
query; dot segments are removed). `none` models the thrown exception. -/
def resolveHref (ref base : String) : Option String :=
  match parseAbsUrl base with
  | none => none
  | some b =>
    let (beforeFrag, frag) := splitFirstL '#' ref.toList
    let fragS := frag.map String.mk
    if hasUrlScheme beforeFrag then
      (parseAbsUrl ref).map serializeUrl
    else if isPrefixOfL ['/', '/'] beforeFrag then
      (parseAbsUrl (b.scheme ++ ":" ++ ref)).map serializeUrl
    else
      let (pathCs, query) := splitFirstL '?' beforeFrag
      let queryS := query.map String.mk
      let newPath :=
        if pathCs.isEmpty then b.path
        else if isPrefixOfL ['/'] pathCs then removeDotSegments (String.mk pathCs)
        else removeDotSegments (mergePaths b.path (String.mk pathCs))
      let newQuery := if pathCs.isEmpty && queryS.isNone then b.query else queryS
      some (serializeUrl { b with path := newPath, query := newQuery, fragment := fragS })

/-- The resolved path of an output URL (used to state claim C1). -/
def urlPathOf (u : String) : String :=
  match parseAbsUrl u with
  | some p => p.path
  | none => ""

/-- A quote character (`"` or `'`), as in the character class of the
`extractLinks` regex. -/
def quoteChar (c : Char) : Bool :=
  c = '"' || c.toNat = 39

/-- Match a literal character sequence at the head of the input,
returning the remainder. -/
def dropLiteral : List Char → List Char → Option (List Char)
  | [], cs => some cs
  | _ :: _, [] => none
  | p :: ps, c :: cs => if p = c then dropLiteral ps cs else none

/-- Match one alternative `attr` + `["']([^"']+)["']` of the
`extractLinks` regex at the head of the input: the literal `attr`
(`href=` or `src=`), an opening quote, one or more non-quote characters,
and a closing quote (either kind, as in the regex's character classes).
Returns the captured body and the input after the match. -/
def matchAttrAt (pat : List Char) (cs : List Char) : Option (String × List Char) :=
  match dropLiteral pat cs with
  | none => none
  | some r1 =>
    match r1 with
    | [] => none
    | q :: r2 =>
      if quoteChar q then
        if (r2.takeWhile (fun c => ¬ quoteChar c)).isEmpty then none
        else
          match r2.drop (r2.takeWhile (fun c => ¬ quoteChar c)).length with
          | [] => none
          | q2 :: r4 =>
            if quoteChar q2 then some (String.mk (r2.takeWhile (fun c => ¬ quoteChar c)), r4)
            else none
      else none

theorem dropLiteral_length_le :
    ∀ (pat cs r : List Char), dropLiteral pat cs = some r → r.length ≤ cs.length := by
  intro pat
  induction pat with
  | nil =>
    intro cs r h
    simp only [dropLiteral, Option.some.injEq] at h
    simp [← h]
  | cons p ps ih =>
    intro cs r h
    cases cs with
    | nil => simp [dropLiteral] at h
    | cons c cs2 =>
      simp only [dropLiteral] at h
      by_cases hpc : p = c
      · rw [if_pos hpc] at h
        exact Nat.le_trans (ih cs2 r h) (Nat.le_succ _)
      · rw [if_neg hpc] at h
        exact absurd h (by simp)

theorem matchAttrAt_shrink {pat cs : List Char} {u : String} {rest : List Char}
    (h : matchAttrAt pat cs = some (u, rest)) : rest.length < cs.length := by
  unfold matchAttrAt at h
  split at h
  next => exact absurd h (by simp)
  next r1 hdrop =>
    have hr1 : r1.length ≤ cs.length := dropLiteral_length_le pat cs r1 hdrop
    split at h
    next => exact absurd h (by simp)
    next q r2 =>
      simp only [List.length_cons] at hr1
      split at h
      · split at h
        · exact absurd h (by simp)
        · split at h
          next => exact absurd h (by simp)
          next q2 r4 hr3 =>
            split at h
            · simp only [Option.some.injEq, Prod.mk.injEq] at h
              have h2 : r4 = rest := h.2
              have hlen3 : (q2 :: r4).length ≤ r2.length := by
                rw [← hr3, List.length_drop]
                omega
              simp only [List.length_cons] at hlen3
              subst h2
              omega
            · exact absurd h (by simp)
      · exact absurd h (by simp)

/-- The global scan of the `extractLinks` regex
`/href=["']([^"']+)["']|src=["']([^"']+)["']/g`: at each position try the
`href` alternative first, then `src`; on a match capture the quoted body
and continue after the match, otherwise advance one character.  The scan
is fuelled to keep the recursion structural; since every match consumes
at least one character (`matchAttrAt_shrink`), fuel equal to the input
length (as supplied by `scanLinks`) is always enough. -/
def scanLinksFuel : Nat → List Char → List String
  | 0, _ => []
  | _ + 1, [] => []
  | fuel + 1, c :: rest =>
    match matchAttrAt "href=".toList (c :: rest) with
    | some (u, r) => u :: scanLinksFuel fuel r
    | none =>
      match matchAttrAt "src=".toList (c :: rest) with
      | some (u, r) => u :: scanLinksFuel fuel r
      | none => scanLinksFuel fuel rest

/-- All `href`/`src` attribute values found in the markup, in order. -/
def scanLinks (cs : List Char) : List String :=
  scanLinksFuel cs.length cs

/-- The `utils.js` function `extractLinks(html, fileExtensions, baseUrl)`: scan the
markup for `href`/`src` attribute values; keep those whose lowercased raw
text ends in one of the extensions; resolve each against the base URL
(dropping, like the `try/catch`, any that fail to resolve); and remove
duplicates via `[...new Set(links)]`. -/
def extractLinks (html : String) (fileExtensions : List String) (baseUrl : String) : List String :=
  let raw := scanLinks html.toList
  let matching := raw.filter (fun u => fileExtensions.any (fun ext => endsWithStr (lowerStr u) ext))
  dedupFirst (matching.filterMap (fun u => resolveHref u baseUrl))

/-- Claim C1 exactly as stated: every output URL is absolute
(a serialization of parsed URL components) and its *resolved path* ends,
case-insensitively, in one of the requested extensions; and the output
has no duplicates. -/
def claimC1 : Prop :=
  ∀ html fileExtensions baseUrl,
    (∀ u ∈ extractLinks html fileExtensions baseUrl,
      (∃ p : UrlParts, u = serializeUrl p) ∧
      ∃ ext ∈ fileExtensions, endsWithStr (lowerStr (urlPathOf u)) (lowerStr ext) = true) ∧
    (extractLinks html fileExtensions baseUrl).Nodup

/-! ## crawler.js: the phase-1 crawl loop

`UbiquitiCrawler.start`/`processPage`, with the headless-browser fetch
abstracted as an oracle `String → Option (List String)` mapping a page
URL to the links extracted from its rendered markup (`none` models a
navigation failure, which `processPage` catches, leaving the crawl state
unchanged).  The `events` and `discovered` fields are ghost
instrumentation recording, respectively, the loop's observable actions
(pop / fetch / delay) and every firing of the product-classification
branch; the source mutates no corresponding state. -/

/-- The configuration values the crawl loop reads (`config.js`). -/
structure CrawlConfig where
  baseUrl : String
  maxPages : Nat
  includePatterns : List String
  excludePatterns : List String

/-- One observable action of the crawl loop: an iteration popping a URL
from the frontier, a page fetch (`processPage` on a fresh URL), or the
inter-request delay (`setTimeout(..., config.crawlSettings.delay)`). -/
inductive CrawlEvent where
  | popped (url : String)
  | fetched (url : String)
  | delayed
deriving DecidableEq, Repr

/-- The mutable state of `UbiquitiCrawler` during phase 1, plus ghost
traces. -/
structure CrawlState where
  visitedUrls : List String
  productUrls : List String
  urlsToVisit : List String
  pageCount : Nat
  events : List CrawlEvent
  discovered : List String
deriving DecidableEq, Repr

/-- JS `Set.prototype.add` on an insertion-ordered duplicate-free list. -/
def insertSet (l : List String) (u : String) : List String :=
  if memStr u l then l else l ++ [u]

/-- The per-link filter in `processPage`: skip external links (not
starting with the base URL); skip links containing an exclude pattern;
links containing `/products/` go to the product-URL set and are never
queued; otherwise links matching an include pattern are appended to the
frontier if neither visited nor already queued. -/
def processLink (cfg : CrawlConfig) (s : CrawlState) (link : String) : CrawlState :=
  if ¬ startsWithStr link cfg.baseUrl then s
  else if cfg.excludePatterns.any (fun pattern => containsStr link pattern) then s
  else if containsStr link "/products/" then
    { s with productUrls := insertSet s.productUrls link
             discovered := s.discovered ++ [link] }
  else if cfg.includePatterns.any (fun pattern => containsStr link pattern) then
    if ¬ memStr link s.visitedUrls ∧ ¬ memStr link s.urlsToVisit then
      { s with urlsToVisit := s.urlsToVisit ++ [link] }
    else s
  else s

/-- The crawler's `processPage`: fetch the page via the oracle and run every extracted
link through the filter; a failed fetch is caught and changes nothing. -/
def processPage (cfg : CrawlConfig) (oracle : String → Option (List String))
    (s : CrawlState) (url : String) : CrawlState :=
  match oracle url with
  | none => s
  | some links => links.foldl (processLink cfg) s

/-- The tail of a processed iteration: `pageCount++` and the
unconditional `setTimeout` delay. -/
def bumpDelay (s : CrawlState) : CrawlState :=
  { s with pageCount := s.pageCount + 1
           events := s.events ++ [CrawlEvent.delayed] }

/-- The state after one full (non-skipped) iteration of the `start`
loop on `url` with remaining frontier `rest`: the pop, the visited-mark,
`processPage`, the page-count bump, and the trailing delay. -/
def afterIteration (cfg : CrawlConfig) (oracle : String → Option (List String))
    (s : CrawlState) (url : String) (rest : List String) : CrawlState :=
  bumpDelay (processPage cfg oracle
    { s with urlsToVisit := rest
             visitedUrls := s.visitedUrls ++ [url]
             events := s.events ++ [CrawlEvent.popped url, CrawlEvent.fetched url] } url)

/-- The `while` loop of `UbiquitiCrawler.start`: while the frontier is
non-empty and fewer than `maxPages` pages were processed, shift the front
URL; if already visited, `continue` (skipping the delay); otherwise mark
visited, process the page, bump the page count, and delay.  One unit of
fuel covers one full iteration, so any partial run truncates only at an
iteration boundary; the real loop terminates because each iteration
either consumes a queue entry without refill or bumps `pageCount` toward
`maxPages`. -/
def crawlLoop (cfg : CrawlConfig) (oracle : String → Option (List String)) :
    Nat → CrawlState → CrawlState
  | 0, s => s
  | fuel + 1, s =>
    match s.urlsToVisit with
    | [] => s
    | url :: rest =>
      if s.pageCount < cfg.maxPages then
        if memStr url s.visitedUrls then
          crawlLoop cfg oracle fuel
            { s with urlsToVisit := rest
                     events := s.events ++ [CrawlEvent.popped url] }
        else
          crawlLoop cfg oracle fuel (afterIteration cfg oracle s url rest)
      else s

/-- The state at entry to the loop in `start`: empty sets, the seed
(base URL) pushed onto the frontier, zero pages processed. -/
def initialCrawlState (cfg : CrawlConfig) : CrawlState :=
  { visitedUrls := []
    productUrls := []
    urlsToVisit := [cfg.baseUrl]
    pageCount := 0
    events := []
    discovered := [] }

/-- Phase 1 of `UbiquitiCrawler.start`: run the crawl loop from the seeded
state. -/
def startCrawl (cfg : CrawlConfig) (oracle : String → Option (List String))
    (fuel : Nat) : CrawlState :=
  crawlLoop cfg oracle fuel (initialCrawlState cfg)

/-- Phase 2 iterates `[...this.productUrls]`: the product-URL set spread
into a list, one entry per element. -/
def phase2Urls (s : CrawlState) : List String :=
  s.productUrls

/-- The crawl-page URLs fetched during a run, in order. -/
def fetchedTrace (events : List CrawlEvent) : List String :=
  events.filterMap (fun e =>
    match e with
    | CrawlEvent.fetched u => some u
    | _ => none)

/-- The number of iterations a trace contains (each iteration starts by
popping a URL off the frontier). -/
def poppedCount (events : List CrawlEvent) : Nat :=
  events.countP (fun e =>
    match e with
    | CrawlEvent.popped _ => true
    | _ => false)

/-- The number of inter-request delays a trace contains. -/
def delayedCount (events : List CrawlEvent) : Nat :=
  events.countP (fun e =>
    match e with
    | CrawlEvent.delayed => true
    | _ => false)

/-- Reference link filter following the words of claim C4: drop external
links; else drop links containing a configured exclude pattern; else a
link containing the product-path marker joins the product-URL set and is
never appended to the crawl frontier, even if it also matches a crawl
include pattern; else the link is appended to the back of the frontier
exactly when it matches an include pattern and is neither visited nor
already queued. -/
def processLinkRef (cfg : CrawlConfig) (s : CrawlState) (link : String) : CrawlState :=
  if startsWithStr link cfg.baseUrl = false then s
  else if cfg.excludePatterns.any (fun pattern => containsStr link pattern) = true then s
  else if containsStr link "/products/" = true then
    { s with productUrls := insertSet s.productUrls link
             discovered := s.discovered ++ [link]
             urlsToVisit := s.urlsToVisit }
  else if (cfg.includePatterns.any (fun pattern => containsStr link pattern)
            && ! memStr link s.visitedUrls
            && ! memStr link s.urlsToVisit) = true then
    { s with urlsToVisit := s.urlsToVisit ++ [link] }
  else s

/-! ## product-parser.js: document model and selector engine

`ProductParser` works on the tree cheerio parses from the page markup.
`HNode` models that tree; selectors are modelled by the constructor
forms the parser's selector strings actually use: a tag name, a class,
`tag.class`, `tag[attr="value"]`, `[attr]`, descendant chains of these,
and comma unions (`td, th`).  `$(sel)` returns matched nodes in document
order; `.find(sel)` searches a selection's descendants.  Selections are
lists of nodes; `.text()` concatenates the text of all matched nodes,
`.first()` takes the first.  JS dictionary assignment `specs[key] =
value` is modelled by in-place association-list update. -/

/-- A node of the parsed markup tree. -/
inductive HNode where
  | elem (tag : String) (attrs : List (String × String)) (children : List HNode)
  | text (s : String)

/-- The children of a node (text nodes have none). -/
def childrenOf : HNode → List HNode
  | HNode.elem _ _ cs => cs
  | HNode.text _ => []

/-- The tag of an element node. -/
def tagOf : HNode → Option String
  | HNode.elem t _ _ => some t
  | HNode.text _ => none

/-- The value of attribute `a`, if present. -/
def attrOf (n : HNode) (a : String) : Option String :=
  match n with
  | HNode.elem _ attrs _ => (attrs.find? (fun p => p.1 = a)).map Prod.snd
  | HNode.text _ => none

/-- Whether the node's whitespace-separated `class` attribute contains
class `c`. -/
def hasClass (n : HNode) (c : String) : Bool :=
  match attrOf n "class" with
  | some cl => memStr c (splitStr cl ' ')
  | none => false

mutual
/-- cheerio `.text()` of a single node: the concatenation of all
descendant text. -/
def textOf : HNode → String
  | HNode.text s => s
  | HNode.elem _ _ cs => textOfList cs
/-- cheerio `.text()` of a selection: concatenation over all nodes. -/
def textOfList : List HNode → String
  | [] => ""
  | n :: ns => textOf n ++ textOfList ns
end

/-- A simple (single-compound) CSS selector of the forms the parser
uses. -/
inductive SimpleSel where
  | tagS (t : String)
  | clsS (c : String)
  | tagCls (t c : String)
  | tagAttr (t a v : String)
  | attrPres (a : String)

/-- Whether a node matches a simple selector (ancestors irrelevant). -/
def matchesSimple : SimpleSel → HNode → Bool
  | SimpleSel.tagS t, n => tagOf n = some t
  | SimpleSel.clsS c, n => hasClass n c
  | SimpleSel.tagCls t c, n => (tagOf n = some t) && hasClass n c
  | SimpleSel.tagAttr t a v, n => (tagOf n = some t) && (attrOf n a = some v)
  | SimpleSel.attrPres a, n => (attrOf n a).isSome

/-- One comma-alternative of a selector: a descendant chain of simple
selectors (outermost first) ending in the target simple selector. -/
structure SelPart where
  chain : List SimpleSel
  target : SimpleSel

/-- A selector: a union of comma-separated alternatives. -/
def Sel : Type := List SelPart

/-- Whether a descendant chain (outermost first) embeds, in order, into
an ancestor path (outermost first): CSS descendant-combinator
semantics.  Greedy matching is complete for subsequence embedding. -/
def chainMatches : List SimpleSel → List HNode → Bool
  | [], _ => true
  | _ :: _, [] => false
  | c :: cs2, m :: ms =>
    if matchesSimple c m then chainMatches cs2 ms else chainMatches (c :: cs2) ms

/-- Whether a node with ancestor path `ancs` matches the selector. -/
def matchesSel (sel : Sel) (ancs : List HNode) (n : HNode) : Bool :=
  sel.any (fun p => matchesSimple p.target n && chainMatches p.chain ancs)

mutual
/-- All nodes of the subtree rooted at the argument (itself included)
matching the selector, in document order; `ancs` is its ancestor path.
(Text nodes never match: they have no tag, class or attributes.) -/
def selectNode (sel : List SelPart) (ancs : List HNode) : HNode → List HNode
  | HNode.text s =>
    if matchesSel sel ancs (HNode.text s) then [HNode.text s] else []
  | HNode.elem t a cs =>
    (if matchesSel sel ancs (HNode.elem t a cs) then [HNode.elem t a cs] else []) ++
      selectNodes sel (ancs ++ [HNode.elem t a cs]) cs
/-- The map of `selectNode` over a forest of siblings. -/
def selectNodes (sel : List SelPart) (ancs : List HNode) : List HNode → List HNode
  | [] => []
  | n :: ns => selectNode sel ancs n ++ selectNodes sel ancs ns
end

/-- cheerio `$(sel)` on the whole document. -/
def queryDoc (sel : Sel) (root : HNode) : List HNode :=
  selectNode sel [] root

/-- cheerio `$matched.find(sel)`: all strict descendants of the nodes of
a selection that match the selector, in document order. -/
def findIn (sel : Sel) (n : HNode) : List HNode :=
  selectNodes sel [n] (childrenOf n)

/-- cheerio `$(selection).first().text()`: `""` on an empty selection. -/
def firstText (ns : List HNode) : String :=
  match ns with
  | [] => ""
  | n :: _ => textOf n

/-- cheerio `$(selection).attr(a)`: the attribute of the first matched node;
`undefined` (here `none`) on an empty selection or a missing attribute. -/
def attrFirst (ns : List HNode) (a : String) : Option String :=
  match ns with
  | [] => none
  | n :: _ => attrOf n a

/-! ## product-parser.js: the ProductParser field extractors -/

/-- A single-alternative selector with no descendant chain. -/
def oneSel (t : SimpleSel) : Sel :=
  [⟨[], t⟩]

/-- A descendant selector `a b`. -/
def descSel (a b : SimpleSel) : Sel :=
  [⟨[a], b⟩]

/-- A descendant selector `a b c`. -/
def descSel3 (a b c : SimpleSel) : Sel :=
  [⟨[a, b], c⟩]

/-- The product-name cascade of `extractProductName`. -/
def nameSelectors : List Sel :=
  [ oneSel (SimpleSel.tagCls "h1" "product-title")
  , oneSel (SimpleSel.tagCls "h1" "product-name")
  , oneSel (SimpleSel.tagCls "h1" "product_title")
  , oneSel (SimpleSel.tagCls "h1" "product-single__title")
  , oneSel (SimpleSel.tagS "h1") ]

/-- A JS line terminator (not matched by `.` in a regex). -/
def isLineTerm (c : Char) : Bool :=
  c = '\n' || c = '\r' || c.toNat = 8232 || c.toNat = 8233

/-- Whether the regex `/\s*[-|]\s*Ubiquiti.*$/i` matches starting
exactly at the head of `cs` and reaching the end of the string
(`.` does not cross line terminators). -/
def matchesSuffixAt (cs : List Char) : Bool :=
  match cs.dropWhile Char.isWhitespace with
  | c :: cs2 =>
    (c = '-' || c = '|') &&
      (isPrefixOfL "ubiquiti".toList ((cs2.dropWhile Char.isWhitespace).map Char.toLower) &&
        ((cs2.dropWhile Char.isWhitespace).drop 8).all (fun ch => ¬ isLineTerm ch))
  | [] => false

/-- Leftmost-match scan for the suffix regex: cut at the earliest
position where it matches, else keep the whole string. -/
def stripSuffixScan : List Char → List Char
  | [] => []
  | c :: cs => if matchesSuffixAt (c :: cs) then [] else c :: stripSuffixScan cs

/-- JS `title.replace(/\s*[-|]\s*Ubiquiti.*$/i, '')`. -/
def stripSiteSuffix (s : String) : String :=
  String.mk (stripSuffixScan s.toList)

/-- The cascade loop of `extractProductName` followed by its `<title>`
fallback: the first selector whose first match has non-empty trimmed
text wins; otherwise the trimmed document title with the site-name
suffix stripped, or `"Unknown Product"` if that is empty. -/
def nameFromSelectors (root : HNode) : List Sel → String
  | [] =>
    let t := stripSiteSuffix (jsTrim (textOfList (queryDoc (oneSel (SimpleSel.tagS "title")) root)))
    if t ≠ "" then t else "Unknown Product"
  | sel :: rest =>
    let name := jsTrim (firstText (queryDoc sel root))
    if name ≠ "" then name else nameFromSelectors root rest

/-- The parser method `ProductParser.extractProductName`. -/
def extractProductName (root : HNode) : String :=
  nameFromSelectors root nameSelectors

/-- The description cascade, each selector paired with its source
string (the code branches on `selector.startsWith('meta')`). -/
def descSelectors : List (String × Sel) :=
  [ (".product-description", oneSel (SimpleSel.clsS "product-description"))
  , (".product-details__description", oneSel (SimpleSel.clsS "product-details__description"))
  , (".product-single__description", oneSel (SimpleSel.clsS "product-single__description"))
  , (".product__description", oneSel (SimpleSel.clsS "product__description"))
  , ("meta[name=\"description\"]", oneSel (SimpleSel.tagAttr "meta" "name" "description")) ]

/-- The cascade loop of `extractProductDescription`: `meta` selectors
read the `content` attribute of the first match, others take the text
of all matches; the first non-blank value wins, trimmed; else `""`. -/
def descFromSelectors (root : HNode) : List (String × Sel) → String
  | [] => ""
  | (str, sel) :: rest =>
    let value :=
      if startsWithStr str "meta" then attrFirst (queryDoc sel root) "content"
      else some (textOfList (queryDoc sel root))
    match value with
    | none => descFromSelectors root rest
    | some d => if jsTrim d = "" then descFromSelectors root rest else jsTrim d

/-- The parser method `ProductParser.extractProductDescription`. -/
def extractProductDescription (root : HNode) : String :=
  descFromSelectors root descSelectors

/-- The price cascade, each selector paired with its source string. -/
def priceSelectors : List (String × Sel) :=
  [ (".product-price", oneSel (SimpleSel.clsS "product-price"))
  , (".price", oneSel (SimpleSel.clsS "price"))
  , (".product__price", oneSel (SimpleSel.clsS "product__price"))
  , ("meta[property=\"product:price:amount\"]",
      oneSel (SimpleSel.tagAttr "meta" "property" "product:price:amount"))
  , ("[data-product-price]", oneSel (SimpleSel.attrPres "data-product-price")) ]

/-- The cascade loop of `extractProductPrice`: `meta` selectors read
the `content` attribute of the first match, others take the text of the
first match; the first non-blank value wins, trimmed; else the literal
`"Price not available"`. -/
def priceFromSelectors (root : HNode) : List (String × Sel) → String
  | [] => "Price not available"
  | (str, sel) :: rest =>
    let value :=
      if startsWithStr str "meta" then attrFirst (queryDoc sel root) "content"
      else some (firstText (queryDoc sel root))
    match value with
    | none => priceFromSelectors root rest
    | some p => if jsTrim p = "" then priceFromSelectors root rest else jsTrim p

/-- The parser method `ProductParser.extractProductPrice`. -/
def extractProductPrice (root : HNode) : String :=
  priceFromSelectors root priceSelectors

/-- JS `specs[key] = value` on a string-keyed object: replace the value
in place if the key exists, else append the pair. -/
def specInsert (specs : List (String × String)) (k v : String) : List (String × String) :=
  match specs with
  | [] => [(k, v)]
  | (k0, v0) :: rest => if k0 = k then (k0, v) :: rest else (k0, v0) :: specInsert rest k v

/-- The spec-table selector cascade of `extractProductSpecifications`. -/
def specTableSelectors : List Sel :=
  [ descSel (SimpleSel.clsS "product-specifications") (SimpleSel.tagS "table")
  , descSel (SimpleSel.clsS "specifications") (SimpleSel.tagS "table")
  , descSel (SimpleSel.clsS "product-specs") (SimpleSel.tagS "table")
  , oneSel (SimpleSel.clsS "specs-table")
  , oneSel (SimpleSel.tagCls "table" "specifications") ]

/-- The selector `td, th` used on each table row. -/
def cellSel : Sel :=
  [⟨[], SimpleSel.tagS "td"⟩, ⟨[], SimpleSel.tagS "th"⟩]

/-- Process one `<tr>`: take the first two cells as key and value
(trimmed); insert only when the row has at least two cells and both key
and value are non-empty. -/
def addRow (specs : List (String × String)) (row : HNode) : List (String × String) :=
  if 2 ≤ (findIn cellSel row).length then
    if jsTrim (textOf ((findIn cellSel row).getD 0 (HNode.text ""))) ≠ "" ∧
        jsTrim (textOf ((findIn cellSel row).getD 1 (HNode.text ""))) ≠ "" then
      specInsert specs (jsTrim (textOf ((findIn cellSel row).getD 0 (HNode.text ""))))
        (jsTrim (textOf ((findIn cellSel row).getD 1 (HNode.text ""))))
    else specs
  else specs

/-- cheerio `$table.find('tr')` over all tables matched by one selector: the
rows of every matched table, in document order. -/
def tableRows (root : HNode) (sel : Sel) : List HNode :=
  ((queryDoc sel root).map (findIn (oneSel (SimpleSel.tagS "tr")))).flatten

/-- The `dt`/`dd` fallback of `extractProductSpecifications`: for each
`dl` list, pair the j-th term with the j-th definition (a missing
definition reads as the empty selection, hence empty text), inserting
only non-blank pairs. -/
def addDlPairs (specs : List (String × String)) :
    List HNode → List HNode → List (String × String)
  | [], _ => specs
  | t :: ts, ds =>
    let key := jsTrim (textOf t)
    let value := jsTrim (firstText ds)
    let specs2 := if key ≠ "" ∧ value ≠ "" then specInsert specs key value else specs
    addDlPairs specs2 ts (ds.drop 1)

/-- The `$('dl').each(...)` phase. -/
def dlPhase (root : HNode) (specs : List (String × String)) : List (String × String) :=
  (queryDoc (oneSel (SimpleSel.tagS "dl")) root).foldl
    (fun sp l => addDlPairs sp (findIn (oneSel (SimpleSel.tagS "dt")) l)
      (findIn (oneSel (SimpleSel.tagS "dd")) l))
    specs

/-- The selector loop of `extractProductSpecifications`: for each table
selector in order, if it matches at least one table, fold its rows into
the accumulated dictionary and return immediately when the dictionary
became non-empty; after the loop, run the `dl`/`dt`/`dd` fallback on
whatever accumulated (always the empty dictionary at that point). -/
def specsGo (root : HNode) : List Sel → List (String × String) → List (String × String)
  | [], specs => dlPhase root specs
  | sel :: rest, specs =>
    if (queryDoc sel root).length > 0 then
      let specs2 := (tableRows root sel).foldl addRow specs
      if specs2.length > 0 then specs2 else specsGo root rest specs2
    else specsGo root rest specs

/-- The parser method `ProductParser.extractProductSpecifications`. -/
def extractProductSpecifications (root : HNode) : List (String × String) :=
  specsGo root specTableSelectors []

/-- The feature-list selector cascade of `extractProductFeatures`. -/
def featureSelectors : List Sel :=
  [ descSel3 (SimpleSel.clsS "product-features") (SimpleSel.tagS "ul") (SimpleSel.tagS "li")
  , descSel3 (SimpleSel.clsS "features") (SimpleSel.tagS "ul") (SimpleSel.tagS "li")
  , descSel (SimpleSel.clsS "product-highlights") (SimpleSel.tagS "li")
  , descSel (SimpleSel.clsS "key-features") (SimpleSel.tagS "li") ]

/-- The cascade loop of `extractProductFeatures`: for each selector in
order, if it matches at least one element, push every non-blank trimmed
item text and return the accumulated list if non-empty. -/
def featuresGo (root : HNode) : List Sel → List String → List String
  | [], feats => feats
  | sel :: rest, feats =>
    let matched := queryDoc sel root
    if matched.length > 0 then
      let feats2 := feats ++ (matched.map (fun f => jsTrim (textOf f))).filter (fun t => t ≠ "")
      if feats2.length > 0 then feats2 else featuresGo root rest feats2
    else featuresGo root rest feats

/-- The parser method `ProductParser.extractProductFeatures`. -/
def extractProductFeatures (root : HNode) : List String :=
  featuresGo root featureSelectors []

/-- The record `ProductParser.extractProductInfo` returns. -/
structure Product where
  name : String
  description : String
  price : String
  specifications : List (String × String)
  features : List String
  url : String
deriving DecidableEq, Repr

/-- The parser method `ProductParser.extractProductInfo(html, url)` on the
parsed tree. -/
def extractProductInfo (root : HNode) (url : String) : Product :=
  { name := extractProductName root
    description := extractProductDescription root
    price := extractProductPrice root
    specifications := extractProductSpecifications root
    features := extractProductFeatures root
    url := url }

/-! ## Claim-facing definitions for the Product Parser -/

/-- No selector of any field's cascade (including the specification
`dl` fallback) matches anything in the document. -/
def NoSelectorsMatch (root : HNode) : Prop :=
  (∀ sel ∈ nameSelectors, (queryDoc sel root).isEmpty = true) ∧
  (∀ p ∈ descSelectors, (queryDoc p.2 root).isEmpty = true) ∧
  (∀ p ∈ priceSelectors, (queryDoc p.2 root).isEmpty = true) ∧
  (∀ sel ∈ specTableSelectors, (queryDoc sel root).isEmpty = true) ∧
  (queryDoc (oneSel (SimpleSel.tagS "dl")) root).isEmpty = true ∧
  (∀ sel ∈ featureSelectors, (queryDoc sel root).isEmpty = true)

instance (root : HNode) : Decidable (NoSelectorsMatch root) := by
  unfold NoSelectorsMatch
  exact instDecidableAnd

/-- Claim C5 exactly as stated: on a document where no cascade selector
matches, the parser returns the trimmed, suffix-stripped title as the
name — with the placeholder `"Unknown Product"` only when no `<title>`
is present — and the documented fallbacks for every other field. -/
def claimC5 : Prop :=
  ∀ (root : HNode) (url : String), NoSelectorsMatch root →
    (extractProductInfo root url).name =
      (if (queryDoc (oneSel (SimpleSel.tagS "title")) root).isEmpty then "Unknown Product"
       else stripSiteSuffix (jsTrim (textOfList (queryDoc (oneSel (SimpleSel.tagS "title")) root)))) ∧
    (extractProductInfo root url).price = "Price not available" ∧
    (extractProductInfo root url).description = "" ∧
    (extractProductInfo root url).features = [] ∧
    (extractProductInfo root url).specifications = []

/-- A document whose only content is a `<title>` that strips to the
empty string: `<title>| Ubiquiti Store</title>`. -/
def pageTitleOnlySuffix : HNode :=
  HNode.elem "html" []
    [HNode.elem "head" [] [HNode.elem "title" [] [HNode.text "| Ubiquiti Store"]]]

/-- A document whose only content is `<title>Widget - Ubiquiti
Store</title>`. -/
def pageTitleWidget : HNode :=
  HNode.elem "html" []
    [HNode.elem "head" [] [HNode.elem "title" [] [HNode.text "Widget - Ubiquiti Store"]]]

/-- A `td` cell holding one text node. -/
def tdNode (s : String) : HNode :=
  HNode.elem "td" [] [HNode.text s]

/-- A `tr` row holding the given cells. -/
def trNode (cells : List HNode) : HNode :=
  HNode.elem "tr" [] cells

/-- The claim C6 example document: a specification table (under the
`.specifications table` selector) with rows
`[("Key1","Val1"), ("",""), ("Key2","Val2")]`. -/
def exampleSpecDoc : HNode :=
  HNode.elem "html" []
    [HNode.elem "body" []
      [HNode.elem "div" [("class", "specifications")]
        [HNode.elem "table" []
          [ trNode [tdNode "Key1", tdNode "Val1"]
          , trNode [tdNode "", tdNode ""]
          , trNode [tdNode "Key2", tdNode "Val2"] ]]]]

/-- The table entries one spec-table selector yields, per claim C6:
every row of every table it matches, first two cells as key/value,
skipping short and blank rows. -/
def specFromSelector (root : HNode) (sel : Sel) : List (String × String) :=
  (tableRows root sel).foldl addRow []

/-- One `dt`/`dd` pair inserted the claim's way: trimmed, only when
both parts are non-empty. -/
def addPairRef (sp : List (String × String)) (p : HNode × HNode) : List (String × String) :=
  if jsTrim (textOf p.1) ≠ "" ∧ jsTrim (textOf p.2) ≠ "" then
    specInsert sp (jsTrim (textOf p.1)) (jsTrim (textOf p.2))
  else sp

/-- The `dl` fallback per claim C6: for every term/definition list,
pair the i-th term with the i-th definition. -/
def dlSpecsRef (root : HNode) : List (String × String) :=
  (queryDoc (oneSel (SimpleSel.tagS "dl")) root).foldl
    (fun sp l => ((findIn (oneSel (SimpleSel.tagS "dt")) l).zip
      (findIn (oneSel (SimpleSel.tagS "dd")) l)).foldl addPairRef sp) []

/-- Reference specification extraction following the words of claim C6:
the first table selector that yields at least one entry wins, returning
immediately without trying subsequent tables; only when no table
yielded any entry does the term/definition fallback run. -/
def extractSpecsRef (root : HNode) : List (String × String) :=
  match (specTableSelectors.map (specFromSelector root)).find? (fun l => ¬ l.isEmpty) with
  | some l => l
  | none => dlSpecsRef root

/-- Every key and every value of an accumulated specification
dictionary is a non-empty string (used to state claim C10). -/
def SpecsNonBlank (sp : List (String × String)) : Prop :=
  ∀ p ∈ sp, p.1 ≠ "" ∧ p.2 ≠ ""

/-- The pieces of the crawl-loop invariant touched by the link filter. -/
def LinkInv (s : CrawlState) : Prop :=
  s.urlsToVisit.Nodup ∧
  (∀ u ∈ s.urlsToVisit, u ∉ s.visitedUrls) ∧
  s.productUrls.Nodup ∧
  (∀ u ∈ s.discovered, u ∈ s.productUrls)

/-- The full invariant of the phase-1 crawl loop: frontier and visited
bookkeeping (`LinkInv`), no crawl page fetched twice, every fetched page
in the visited set, and one delay per iteration so far. -/
def CrawlInv (s : CrawlState) : Prop :=
  LinkInv s ∧
  (fetchedTrace s.events).Nodup ∧
  (∀ u ∈ fetchedTrace s.events, u ∈ s.visitedUrls) ∧
  delayedCount s.events = poppedCount s.events

/-! ## Theorems -/

/-- Claim C2, counterexample:  The claim as stated fails: for the URL
`a/collections//collections/foo` the split contains a `collections` part
followed by the non-empty part `foo`, but `determineCategory` only
inspects the part after the *first* `collections` part (which is empty
here) and falls through to the name scan, returning `"Other"`, not
`"Foo"`. -/
theorem determineCategory_claim_false : ¬ claimC2 := by
  intro h
  have h1 := (h "" "a/collections//collections/foo" []).1
  have hp : hasCollectionsPair "a/collections//collections/foo" := by
    refine ⟨"foo", ?_, by decide⟩
    decide
  obtain ⟨seg, hmem, hne, heq⟩ := h1 hp
  have hparts : splitStr "a/collections//collections/foo" '/' =
      ["a", "collections", "", "collections", "foo"] := by decide
  rw [hparts] at hmem
  simp only [List.tail_cons, List.zip_cons_cons, List.zip_nil_right, List.mem_cons,
    List.not_mem_nil, or_false, Prod.mk.injEq] at hmem
  have hseg : seg = "" ∨ seg = "foo" := by tauto
  rcases hseg with rfl | rfl
  · exact hne rfl
  · rw [show determineCategory "" "a/collections//collections/foo" [] = "Other" from by decide] at heq
    exact absurd heq (by decide)

/-- Claim C2, amended:  `determineCategory` equals the reference definition
in which only the *first* `collections` part of the slash-split URL is
inspected: if the part after it exists and is non-empty it is returned
title-cased regardless of the product name; otherwise the first known
category that is a case-insensitive substring of the product name is
returned; otherwise `"Other"`. -/
theorem determineCategory_eq_amended (productName url : String) (categories : List String) :
    determineCategory productName url categories =
      categoryRefAmended productName url categories := by
  simp only [determineCategory, categoryRefAmended]
  set parts := splitStr url '/' with hparts
  set idx := indexOfStr "collections" parts with hidx
  by_cases h : idx + 1 < parts.length
  · rw [if_pos h]
    have hlen : 2 ≤ (parts.drop idx).length := by
      rw [List.length_drop]; omega
    cases hd : parts.drop idx with
    | nil => rw [hd] at hlen; simp at hlen
    | cons a t =>
      cases t with
      | nil => rw [hd] at hlen; simp at hlen
      | cons b t2 =>
        have hb : parts.getD (idx + 1) "" = b := by
          have h1 : (parts.drop idx)[1]? = parts[idx + 1]? := by
            rw [List.getElem?_drop]
          rw [hd] at h1
          simp only [List.getElem?_cons_succ, List.getElem?_cons_zero] at h1
          rw [List.getD_eq_getElem?_getD, ← h1]
          rfl
        rw [hb]
        by_cases hbe : b = ""
        · simp [hbe]
        · simp [hbe]
  · rw [if_neg h]
    have hlen : (parts.drop idx).length ≤ 1 := by
      rw [List.length_drop]; omega
    cases hd : parts.drop idx with
    | nil => rfl
    | cons a t =>
      cases t with
      | nil => rfl
      | cons b t2 => rw [hd] at hlen; simp at hlen

theorem mem_dedupFirstAux {u : String} :
    ∀ (l seen : List String), u ∈ dedupFirstAux seen l → u ∈ l := by
  intro l
  induction l with
  | nil => intro seen h; exact absurd h (by simp [dedupFirstAux])
  | cons x xs ih =>
    intro seen h
    simp only [dedupFirstAux] at h
    by_cases hm : memStr x seen = true
    · rw [if_pos hm] at h
      exact List.mem_cons_of_mem x (ih seen h)
    · rw [if_neg hm] at h
      rcases List.mem_cons.mp h with rfl | h2
      · exact List.mem_cons_self _ _
      · exact List.mem_cons_of_mem x (ih (x :: seen) h2)

theorem dedupFirstAux_fresh_nodup :
    ∀ (l seen : List String),
      (∀ u ∈ dedupFirstAux seen l, memStr u seen = false) ∧
      (dedupFirstAux seen l).Nodup := by
  intro l
  induction l with
  | nil => intro seen; simp [dedupFirstAux]
  | cons x xs ih =>
    intro seen
    simp only [dedupFirstAux]
    by_cases hm : memStr x seen = true
    · rw [if_pos hm]
      exact ih seen
    · rw [if_neg hm]
      have ihx := ih (x :: seen)
      constructor
      · intro u hu
        rcases List.mem_cons.mp hu with rfl | h2
        · exact Bool.not_eq_true _ ▸ hm
        · have := ihx.1 u h2
          simp only [memStr, Bool.or_eq_false_iff] at this
          exact this.2
      · refine List.nodup_cons.mpr ⟨?_, ihx.2⟩
        intro hx
        have := ihx.1 x hx
        simp [memStr] at this

theorem dedupFirst_nodup (l : List String) : (dedupFirst l).Nodup :=
  (dedupFirstAux_fresh_nodup l []).2

theorem mem_dedupFirst {u : String} {l : List String} (h : u ∈ dedupFirst l) : u ∈ l :=
  mem_dedupFirstAux l [] h

theorem resolveHref_serialize {r b u : String} (h : resolveHref r b = some u) :
    ∃ p : UrlParts, u = serializeUrl p := by
  unfold resolveHref at h
  split at h
  · exact absurd h (by simp)
  next bp _ =>
    rcases hsp : splitFirstL '#' r.toList with ⟨bf, fr⟩
    rw [hsp] at h
    simp only at h
    by_cases h1 : hasUrlScheme bf = true
    · rw [if_pos h1] at h
      cases hp : parseAbsUrl r with
      | none => rw [hp] at h; exact absurd h (by simp)
      | some p =>
        rw [hp] at h
        simp only [Option.map_some', Option.some.injEq] at h
        exact ⟨p, h.symm⟩
    · rw [if_neg h1] at h
      by_cases h2 : isPrefixOfL ['/', '/'] bf = true
      · rw [if_pos h2] at h
        cases hp : parseAbsUrl (bp.scheme ++ ":" ++ r) with
        | none => rw [hp] at h; exact absurd h (by simp)
        | some p =>
          rw [hp] at h
          simp only [Option.map_some', Option.some.injEq] at h
          exact ⟨p, h.symm⟩
      · rw [if_neg h2] at h
        rcases hq : splitFirstL '?' bf with ⟨pc, qu⟩
        rw [hq] at h
        simp only [Option.some.injEq] at h
        exact ⟨_, h.symm⟩

/-- Claim C1, counterexample:  The claim as stated fails: the extension
check of `extractLinks` runs on the *raw* attribute value before URL
resolution, so for the markup `href="a?b=.jpg"` the query string makes
the raw value end in `.jpg`, while the resolved URL
`https://x.com/a?b=.jpg` has path `/a`, which does not end in `.jpg`. -/
theorem extractLinks_claim_false : ¬ claimC1 := by
  intro h
  have h1 := (h "href=\"a?b=.jpg\"" [".jpg"] "https://x.com/").1
    "https://x.com/a?b=.jpg" (by decide)
  obtain ⟨-, ext, hext, hend⟩ := h1
  have hx : ext = ".jpg" := by simpa using hext
  subst hx
  exact absurd hend (by decide)

/-- Claim C1, amended:  Every URL in the output of `extractLinks` is
absolute (the serialization of parsed URL components) and is the
resolution against the base URL of a scanned `href`/`src` attribute value
whose lowercased *raw text* ends in one of the requested extensions;
and the output list contains no duplicate URLs. -/
theorem extractLinks_amended (html : String) (fileExtensions : List String) (baseUrl : String) :
    (∀ u ∈ extractLinks html fileExtensions baseUrl,
      ∃ r ∈ scanLinks html.toList,
        (fileExtensions.any (fun ext => endsWithStr (lowerStr r) ext)) = true ∧
        resolveHref r baseUrl = some u ∧ ∃ p : UrlParts, u = serializeUrl p) ∧
    (extractLinks html fileExtensions baseUrl).Nodup := by
  constructor
  · intro u hu
    simp only [extractLinks] at hu
    have hu2 := mem_dedupFirst hu
    obtain ⟨r, hr, hres⟩ := List.mem_filterMap.mp hu2
    obtain ⟨hr1, hr2⟩ := List.mem_filter.mp hr
    exact ⟨r, hr1, hr2, hres, resolveHref_serialize hres⟩
  · exact dedupFirst_nodup _

/-- Claim C1, amended, witness at a concrete input: the markup
`<a href='/d/img.png'>` with extension set `[".png"]` and base
`https://x.com/` produces the output URL `https://x.com/d/img.png`. -/
theorem extractLinks_amended_witness :
    ∃ r ∈ scanLinks ("<a href='/d/img.png'>").toList,
      ([".png"].any (fun ext => endsWithStr (lowerStr r) ext)) = true ∧
      resolveHref r "https://x.com/" = some "https://x.com/d/img.png" ∧
      ∃ p : UrlParts, "https://x.com/d/img.png" = serializeUrl p :=
  (extractLinks_amended "<a href='/d/img.png'>" [".png"] "https://x.com/").1
    "https://x.com/d/img.png" (by decide)

theorem memStr_iff_mem {a : String} : ∀ {l : List String}, memStr a l = true ↔ a ∈ l := by
  intro l
  induction l with
  | nil => simp [memStr]
  | cons b bs ih =>
    simp only [memStr, Bool.or_eq_true, decide_eq_true_eq, List.mem_cons, ih]
    constructor
    · rintro (rfl | h)
      · exact Or.inl rfl
      · exact Or.inr h
    · rintro (rfl | h)
      · exact Or.inl rfl
      · exact Or.inr h

theorem insertSet_nodup {l : List String} (h : l.Nodup) (u : String) :
    (insertSet l u).Nodup := by
  unfold insertSet
  split
  · exact h
  next hm =>
    rw [← List.concat_eq_append]
    refine List.Nodup.concat ?_ h
    intro hmem
    exact hm (memStr_iff_mem.mpr hmem)

theorem mem_insertSet_self (l : List String) (u : String) : u ∈ insertSet l u := by
  unfold insertSet
  split
  next hm => exact memStr_iff_mem.mp hm
  · simp

theorem mem_insertSet_of_mem {l : List String} {v : String} (h : v ∈ l) (u : String) :
    v ∈ insertSet l u := by
  unfold insertSet
  split
  · exact h
  · simp [h]

theorem processLink_visited (cfg : CrawlConfig) (s : CrawlState) (link : String) :
    (processLink cfg s link).visitedUrls = s.visitedUrls := by
  unfold processLink
  split_ifs <;> rfl

theorem processLink_events (cfg : CrawlConfig) (s : CrawlState) (link : String) :
    (processLink cfg s link).events = s.events := by
  unfold processLink
  split_ifs <;> rfl

theorem processLink_pageCount (cfg : CrawlConfig) (s : CrawlState) (link : String) :
    (processLink cfg s link).pageCount = s.pageCount := by
  unfold processLink
  split_ifs <;> rfl

theorem processLink_linkInv (cfg : CrawlConfig) (s : CrawlState) (link : String)
    (h : LinkInv s) : LinkInv (processLink cfg s link) := by
  obtain ⟨h1, h2, h3, h4⟩ := h
  unfold LinkInv processLink
  split_ifs with c1 c2 c3 c4 c5
  all_goals first
    | exact ⟨h1, h2, h3, h4⟩
    | (refine ⟨h1, h2, insertSet_nodup h3 link, ?_⟩
       intro u hu
       rcases List.mem_append.mp hu with hu1 | hu2
       · exact mem_insertSet_of_mem (h4 u hu1) link
       · rw [List.mem_singleton.mp hu2]
         exact mem_insertSet_self _ _)
    | (refine ⟨?_, ?_, h3, h4⟩
       · rw [← List.concat_eq_append]
         refine List.Nodup.concat ?_ h1
         intro hmem
         exact c5.2 (memStr_iff_mem.mpr hmem)
       · intro u hu
         rcases List.mem_append.mp hu with hu1 | hu2
         · exact h2 u hu1
         · rw [List.mem_singleton.mp hu2]
           intro hv
           exact c5.1 (memStr_iff_mem.mpr hv))

theorem foldl_processLink_visited (cfg : CrawlConfig) :
    ∀ (links : List String) (s : CrawlState),
      (links.foldl (processLink cfg) s).visitedUrls = s.visitedUrls := by
  intro links
  induction links with
  | nil => intro s; rfl
  | cons l ls ih =>
    intro s
    rw [List.foldl_cons, ih, processLink_visited]

theorem foldl_processLink_events (cfg : CrawlConfig) :
    ∀ (links : List String) (s : CrawlState),
      (links.foldl (processLink cfg) s).events = s.events := by
  intro links
  induction links with
  | nil => intro s; rfl
  | cons l ls ih =>
    intro s
    rw [List.foldl_cons, ih, processLink_events]

theorem foldl_processLink_linkInv (cfg : CrawlConfig) :
    ∀ (links : List String) (s : CrawlState), LinkInv s →
      LinkInv (links.foldl (processLink cfg) s) := by
  intro links
  induction links with
  | nil => intro s h; exact h
  | cons l ls ih =>
    intro s h
    rw [List.foldl_cons]
    exact ih _ (processLink_linkInv cfg s l h)

theorem processPage_visited (cfg : CrawlConfig) (oracle : String → Option (List String))
    (s : CrawlState) (url : String) :
    (processPage cfg oracle s url).visitedUrls = s.visitedUrls := by
  unfold processPage
  cases oracle url with
  | none => rfl
  | some links => exact foldl_processLink_visited cfg links s

theorem processPage_events (cfg : CrawlConfig) (oracle : String → Option (List String))
    (s : CrawlState) (url : String) :
    (processPage cfg oracle s url).events = s.events := by
  unfold processPage
  cases oracle url with
  | none => rfl
  | some links => exact foldl_processLink_events cfg links s

theorem processPage_linkInv (cfg : CrawlConfig) (oracle : String → Option (List String))
    (s : CrawlState) (url : String) (h : LinkInv s) :
    LinkInv (processPage cfg oracle s url) := by
  unfold processPage
  cases oracle url with
  | none => exact h
  | some links => exact foldl_processLink_linkInv cfg links s h

theorem fetchedTrace_append (a b : List CrawlEvent) :
    fetchedTrace (a ++ b) = fetchedTrace a ++ fetchedTrace b :=
  List.filterMap_append a b _

theorem delayedCount_append (a b : List CrawlEvent) :
    delayedCount (a ++ b) = delayedCount a + delayedCount b :=
  List.countP_append _ a b

theorem poppedCount_append (a b : List CrawlEvent) :
    poppedCount (a ++ b) = poppedCount a + poppedCount b :=
  List.countP_append _ a b

theorem bumpDelay_events (s : CrawlState) :
    (bumpDelay s).events = s.events ++ [CrawlEvent.delayed] := rfl

theorem bumpDelay_visited (s : CrawlState) :
    (bumpDelay s).visitedUrls = s.visitedUrls := rfl

theorem bumpDelay_linkInv {s : CrawlState} (h : LinkInv s) : LinkInv (bumpDelay s) := h

theorem afterIteration_inv (cfg : CrawlConfig) (oracle : String → Option (List String))
    (s : CrawlState) (url : String) (rest : List String)
    (hq : s.urlsToVisit = url :: rest) (h : CrawlInv s) :
    CrawlInv (afterIteration cfg oracle s url rest) := by
  obtain ⟨⟨h1, h2, h3, h4⟩, h5, h6, h7⟩ := h
  rw [hq] at h1 h2
  have hurl : url ∉ s.visitedUrls := h2 url (List.mem_cons_self url rest)
  set s2 : CrawlState :=
    { s with urlsToVisit := rest
             visitedUrls := s.visitedUrls ++ [url]
             events := s.events ++ [CrawlEvent.popped url, CrawlEvent.fetched url] } with hs2
  have hs2inv : LinkInv s2 := by
    refine ⟨(List.nodup_cons.mp h1).2, ?_, h3, h4⟩
    intro u hu
    intro hv
    rcases List.mem_append.mp hv with hv1 | hv2
    · exact h2 u (List.mem_cons_of_mem url hu) hv1
    · exact (List.nodup_cons.mp h1).1 (List.mem_singleton.mp hv2 ▸ hu)
  have hpv := processPage_visited cfg oracle s2 url
  have hpe := processPage_events cfg oracle s2 url
  have hpl := processPage_linkInv cfg oracle s2 url hs2inv
  have hs2e : s2.events = s.events ++ [CrawlEvent.popped url, CrawlEvent.fetched url] := rfl
  have hs2v : s2.visitedUrls = s.visitedUrls ++ [url] := rfl
  have he1 : fetchedTrace [CrawlEvent.popped url, CrawlEvent.fetched url] = [url] := rfl
  have he2 : fetchedTrace [CrawlEvent.delayed] = ([] : List String) := rfl
  unfold afterIteration
  rw [← hs2]
  refine ⟨bumpDelay_linkInv hpl, ?_, ?_, ?_⟩
  · rw [bumpDelay_events, hpe, hs2e, fetchedTrace_append, fetchedTrace_append, he1, he2,
      List.append_nil, ← List.concat_eq_append]
    refine List.Nodup.concat ?_ h5
    intro hmem
    exact hurl (h6 url hmem)
  · intro u hu
    rw [bumpDelay_events, hpe, hs2e, fetchedTrace_append, fetchedTrace_append, he1, he2,
      List.append_nil] at hu
    rw [bumpDelay_visited, hpv, hs2v]
    rcases List.mem_append.mp hu with hm1 | hm2
    · exact List.mem_append.mpr (Or.inl (h6 u hm1))
    · exact List.mem_append.mpr (Or.inr hm2)
  · rw [bumpDelay_events, hpe, hs2e, delayedCount_append, delayedCount_append,
      poppedCount_append, poppedCount_append]
    have hd1 : delayedCount [CrawlEvent.popped url, CrawlEvent.fetched url] = 0 := rfl
    have hd2 : delayedCount [CrawlEvent.delayed] = 1 := rfl
    have hp1 : poppedCount [CrawlEvent.popped url, CrawlEvent.fetched url] = 1 := rfl
    have hp2 : poppedCount [CrawlEvent.delayed] = 0 := rfl
    rw [hd1, hd2, hp1, hp2, h7]

theorem crawlLoop_step {cfg : CrawlConfig} {oracle : String → Option (List String)}
    {n : Nat} {s : CrawlState} {url : String} {rest : List String}
    (hq : s.urlsToVisit = url :: rest)
    (hpc : s.pageCount < cfg.maxPages) (hms : memStr url s.visitedUrls = false) :
    crawlLoop cfg oracle (n + 1) s =
      crawlLoop cfg oracle n (afterIteration cfg oracle s url rest) := by
  conv_lhs => unfold crawlLoop
  rw [hq]
  dsimp only
  rw [if_pos hpc, hms]
  simp

theorem crawlLoop_nil {cfg : CrawlConfig} {oracle : String → Option (List String)}
    {n : Nat} {s : CrawlState} (hq : s.urlsToVisit = []) :
    crawlLoop cfg oracle (n + 1) s = s := by
  conv_lhs => unfold crawlLoop
  rw [hq]

theorem crawlLoop_capped {cfg : CrawlConfig} {oracle : String → Option (List String)}
    {n : Nat} {s : CrawlState} {url : String} {rest : List String}
    (hq : s.urlsToVisit = url :: rest) (hpc : ¬ s.pageCount < cfg.maxPages) :
    crawlLoop cfg oracle (n + 1) s = s := by
  conv_lhs => unfold crawlLoop
  rw [hq]
  dsimp only
  rw [if_neg hpc]

theorem crawlLoop_inv (cfg : CrawlConfig) (oracle : String → Option (List String)) :
    ∀ (fuel : Nat) (s : CrawlState), CrawlInv s → CrawlInv (crawlLoop cfg oracle fuel s) := by
  intro fuel
  induction fuel with
  | zero => intro s h; exact h
  | succ n ih =>
    intro s h
    cases hq : s.urlsToVisit with
    | nil => rw [crawlLoop_nil hq]; exact h
    | cons url rest =>
      by_cases hpc : s.pageCount < cfg.maxPages
      · have hurl : url ∉ s.visitedUrls := h.1.2.1 url (hq ▸ List.mem_cons_self url rest)
        have hms : memStr url s.visitedUrls = false := by
          cases hmv : memStr url s.visitedUrls
          · rfl
          · exact absurd (memStr_iff_mem.mp hmv) hurl
        rw [crawlLoop_step hq hpc hms]
        exact ih _ (afterIteration_inv cfg oracle s url rest hq h)
      · rw [crawlLoop_capped hq hpc]
        exact h

theorem initial_crawlInv (cfg : CrawlConfig) : CrawlInv (initialCrawlState cfg) := by
  refine ⟨⟨?_, ?_, ?_, ?_⟩, ?_, ?_, ?_⟩ <;>
    simp [initialCrawlState, LinkInv, fetchedTrace, delayedCount, poppedCount]

/-- Claim C3:  For every seed/base URL, page cap, pattern configuration and
link-extraction oracle (including failing fetches), the sequence of URLs
fetched as crawl pages during phase 1 contains no repeats: a URL is
marked visited before its page is processed, the skip branch drops
already-visited pops, and the visited set never shrinks. -/
theorem crawl_no_refetch (cfg : CrawlConfig) (oracle : String → Option (List String))
    (fuel : Nat) : (fetchedTrace (startCrawl cfg oracle fuel).events).Nodup :=
  (crawlLoop_inv cfg oracle fuel _ (initial_crawlInv cfg)).2.1

/-- Claim C4:  The crawler's per-link filter equals the reference filter
written from the claim: drop external links; else drop links containing
an exclude pattern; else a link containing the product-path marker
`/products/` joins the product-URL set and is never appended to the
frontier, even if it also matches a crawl include pattern; else the link
is appended to the back of the frontier exactly when it matches an
include pattern and is neither visited nor already queued. -/
theorem processLink_matches_ref (cfg : CrawlConfig) (s : CrawlState) (link : String) :
    processLink cfg s link = processLinkRef cfg s link := by
  unfold processLink processLinkRef
  by_cases c1 : startsWithStr link cfg.baseUrl = true
  · by_cases c2 : cfg.excludePatterns.any (fun pattern => containsStr link pattern) = true
    · simp [c1, c2]
    · by_cases c3 : containsStr link "/products/" = true
      · simp [c1, c2, c3]
      · by_cases c4 : cfg.includePatterns.any (fun pattern => containsStr link pattern) = true
        · by_cases c5a : memStr link s.visitedUrls = true
          · simp [c1, c2, c3, c4, c5a]
          · by_cases c5b : memStr link s.urlsToVisit = true
            · simp [c1, c2, c3, c4, c5a, c5b]
            · simp [c1, c2, c3, c4, c5a, c5b]
        · simp [c1, c2, c3, c4]
  · simp [c1]

/-- Claim C7:  Every product URL discovered as a link during phase 1 —
however many times the product branch fired on it — occurs exactly once
in the list phase 2 iterates over (`[...this.productUrls]`): the
product-URL set has set semantics. -/
theorem product_processed_once (cfg : CrawlConfig) (oracle : String → Option (List String))
    (fuel : Nat) (u : String) (h : u ∈ (startCrawl cfg oracle fuel).discovered) :
    (phase2Urls (startCrawl cfg oracle fuel)).count u = 1 := by
  have hinv := crawlLoop_inv cfg oracle fuel _ (initial_crawlInv cfg)
  exact List.count_eq_one_of_mem hinv.1.2.2.1 (hinv.1.2.2.2 u h)

/-- Claim C7 witness: a product URL linked twice from the seed page is
processed once in phase 2. -/
theorem product_processed_once_witness :
    (phase2Urls (startCrawl ⟨"https://s/", 10, ["/c/"], []⟩
      (fun url => if url = "https://s/" then
          some ["https://s/products/p", "https://s/products/p"] else some [])
      3)).count "https://s/products/p" = 1 :=
  product_processed_once _ _ 3 _ (by decide)

/-- Claim C8:  In every phase-1 run from the seeded initial state, the
inter-request delay is observed exactly once per loop iteration,
whatever each iteration's outcome — in particular for iterations whose
fetch fails (`oracle` returning `none`).  The `continue` branch for an
already-visited pop would skip the delay, but that branch is unreachable
from the initial state: a URL is only enqueued while unvisited and only
becomes visited at the moment it is popped, so no popped URL is ever
already visited. -/
theorem crawl_delay_each_iteration (cfg : CrawlConfig)
    (oracle : String → Option (List String)) (fuel : Nat) :
    delayedCount (startCrawl cfg oracle fuel).events =
      poppedCount (startCrawl cfg oracle fuel).events :=
  (crawlLoop_inv cfg oracle fuel _ (initial_crawlInv cfg)).2.2.2

/-- Claim C9:  The frontier never contains duplicate URLs: at every
iteration boundary of every run the frontier is duplicate-free, and the
per-link filter preserves frontier duplicate-freedom at every
intermediate point of `processPage` (a link is appended only after the
`!this.urlsToVisit.includes(link)` check). -/
theorem frontier_no_duplicates :
    (∀ (cfg : CrawlConfig) (oracle : String → Option (List String)) (fuel : Nat),
        ((startCrawl cfg oracle fuel).urlsToVisit).Nodup) ∧
    (∀ (cfg : CrawlConfig) (s : CrawlState) (link : String),
        s.urlsToVisit.Nodup → ((processLink cfg s link).urlsToVisit).Nodup) := by
  constructor
  · intro cfg oracle fuel
    exact (crawlLoop_inv cfg oracle fuel _ (initial_crawlInv cfg)).1.1
  · intro cfg s link h
    unfold processLink
    split_ifs with c1 c2 c3 c4 c5
    all_goals first
      | exact h
      | (rw [← List.concat_eq_append]
         refine List.Nodup.concat ?_ h
         intro hmem
         exact c5.2 (memStr_iff_mem.mpr hmem))

/-- Claim C9 witness: the filter keeps a concrete duplicate-free frontier
duplicate-free while appending a fresh include-matching link. -/
theorem frontier_no_duplicates_witness :
    ((processLink ⟨"https://s/", 5, ["/c/"], []⟩
        ⟨[], [], ["https://s/c/1"], 0, [], []⟩ "https://s/c/2").urlsToVisit).Nodup :=
  frontier_no_duplicates.2 ⟨"https://s/", 5, ["/c/"], []⟩
    ⟨[], [], ["https://s/c/1"], 0, [], []⟩ "https://s/c/2" (by decide)

theorem nameFromSelectors_fallback (root : HNode) :
    ∀ (sels : List Sel), (∀ sel ∈ sels, (queryDoc sel root).isEmpty = true) →
      nameFromSelectors root sels =
        (if stripSiteSuffix (jsTrim (textOfList
            (queryDoc (oneSel (SimpleSel.tagS "title")) root))) ≠ ""
         then stripSiteSuffix (jsTrim (textOfList
            (queryDoc (oneSel (SimpleSel.tagS "title")) root)))
         else "Unknown Product") := by
  intro sels
  induction sels with
  | nil => intro _; rfl
  | cons sel rest ih =>
    intro h
    have h0 : queryDoc sel root = [] :=
      List.isEmpty_iff.mp (h sel (List.mem_cons_self _ _))
    show (if jsTrim (firstText (queryDoc sel root)) ≠ "" then _ else _) = _
    rw [h0]
    show (if jsTrim (firstText []) ≠ "" then _ else nameFromSelectors root rest) = _
    rw [if_neg (by decide)]
    exact ih (fun s hs => h s (List.mem_cons_of_mem _ hs))

theorem descFromSelectors_fallback (root : HNode) :
    ∀ (sels : List (String × Sel)), (∀ p ∈ sels, (queryDoc p.2 root).isEmpty = true) →
      descFromSelectors root sels = "" := by
  intro sels
  induction sels with
  | nil => intro _; rfl
  | cons p rest ih =>
    intro h
    have h0 : queryDoc p.2 root = [] :=
      List.isEmpty_iff.mp (h p (List.mem_cons_self _ _))
    obtain ⟨str, sel⟩ := p
    have ih2 := ih (fun q hq => h q (List.mem_cons_of_mem _ hq))
    unfold descFromSelectors
    by_cases hm : startsWithStr str "meta" = true
    · rw [if_pos hm, h0]
      exact ih2
    · rw [if_neg hm, h0]
      show (if jsTrim (textOfList []) = "" then descFromSelectors root rest else _) = ""
      rw [if_pos (by decide)]
      exact ih2

theorem priceFromSelectors_fallback (root : HNode) :
    ∀ (sels : List (String × Sel)), (∀ p ∈ sels, (queryDoc p.2 root).isEmpty = true) →
      priceFromSelectors root sels = "Price not available" := by
  intro sels
  induction sels with
  | nil => intro _; rfl
  | cons p rest ih =>
    intro h
    have h0 : queryDoc p.2 root = [] :=
      List.isEmpty_iff.mp (h p (List.mem_cons_self _ _))
    obtain ⟨str, sel⟩ := p
    have ih2 := ih (fun q hq => h q (List.mem_cons_of_mem _ hq))
    unfold priceFromSelectors
    by_cases hm : startsWithStr str "meta" = true
    · rw [if_pos hm, h0]
      exact ih2
    · rw [if_neg hm, h0]
      show (if jsTrim (firstText []) = "" then priceFromSelectors root rest else _) =
        "Price not available"
      rw [if_pos (by decide)]
      exact ih2

theorem specsGo_no_tables (root : HNode) :
    ∀ (sels : List Sel) (specs : List (String × String)),
      (∀ sel ∈ sels, (queryDoc sel root).isEmpty = true) →
      specsGo root sels specs = dlPhase root specs := by
  intro sels
  induction sels with
  | nil => intro specs _; rfl
  | cons sel rest ih =>
    intro specs h
    have h0 : queryDoc sel root = [] :=
      List.isEmpty_iff.mp (h sel (List.mem_cons_self _ _))
    unfold specsGo
    rw [h0]
    show (if (0 : Nat) > 0 then _ else specsGo root rest specs) = _
    rw [if_neg (by omega)]
    exact ih specs (fun s hs => h s (List.mem_cons_of_mem _ hs))

theorem dlPhase_no_dl (root : HNode) (specs : List (String × String))
    (h : (queryDoc (oneSel (SimpleSel.tagS "dl")) root).isEmpty = true) :
    dlPhase root specs = specs := by
  unfold dlPhase
  rw [List.isEmpty_iff.mp h]
  rfl

theorem featuresGo_no_match (root : HNode) :
    ∀ (sels : List Sel) (feats : List String),
      (∀ sel ∈ sels, (queryDoc sel root).isEmpty = true) →
      featuresGo root sels feats = feats := by
  intro sels
  induction sels with
  | nil => intro feats _; rfl
  | cons sel rest ih =>
    intro feats h
    have h0 : queryDoc sel root = [] :=
      List.isEmpty_iff.mp (h sel (List.mem_cons_self _ _))
    unfold featuresGo
    rw [h0]
    show (if (0 : Nat) > 0 then _ else featuresGo root rest feats) = _
    rw [if_neg (by omega)]
    exact ih feats (fun s hs => h s (List.mem_cons_of_mem _ hs))

/-- Claim C5, counterexample:  The claim as stated fails on a document
whose `<title>` is `| Ubiquiti Store` and which contains nothing any
cascade selector matches: the title is present, so the claim requires
the stripped title (the empty string) as the name, but the code's
`title || 'Unknown Product'` also falls back to the placeholder when
the stripped title is empty, returning `"Unknown Product"`. -/
theorem parser_fallback_claim_false : ¬ claimC5 := by
  intro h
  have h1 := (h pageTitleOnlySuffix "u" (by decide)).1
  exact absurd h1 (by decide)

/-- Claim C5, amended:  On well-formed markup where no cascade selector
matches, the parser returns (without raising — it is a total function)
the trimmed document title with the trailing site-name suffix stripped
as the name, falling back to `"Unknown Product"` when no title is
present *or the stripped title is empty*; the price is the literal
`"Price not available"`, the description is empty, the features list is
empty and the specifications map is empty. -/
theorem parser_fallbacks (root : HNode) (url : String) (h : NoSelectorsMatch root) :
    (extractProductInfo root url).name =
      (if stripSiteSuffix (jsTrim (textOfList
          (queryDoc (oneSel (SimpleSel.tagS "title")) root))) ≠ ""
       then stripSiteSuffix (jsTrim (textOfList
          (queryDoc (oneSel (SimpleSel.tagS "title")) root)))
       else "Unknown Product") ∧
    (extractProductInfo root url).price = "Price not available" ∧
    (extractProductInfo root url).description = "" ∧
    (extractProductInfo root url).features = [] ∧
    (extractProductInfo root url).specifications = [] := by
  obtain ⟨hn, hd, hp, ht, hdl, hf⟩ := h
  refine ⟨?_, ?_, ?_, ?_, ?_⟩
  · exact nameFromSelectors_fallback root nameSelectors hn
  · exact priceFromSelectors_fallback root priceSelectors hp
  · exact descFromSelectors_fallback root descSelectors hd
  · exact featuresGo_no_match root featureSelectors [] hf
  · show specsGo root specTableSelectors [] = []
    rw [specsGo_no_tables root specTableSelectors [] ht]
    exact dlPhase_no_dl root [] hdl

/-- Claim C5, amended, witness at the document
`<title>Widget - Ubiquiti Store</title>` (no cascade selector matches):
the parser yields name `Widget` and all other fallbacks. -/
theorem parser_fallbacks_witness :
    (extractProductInfo pageTitleWidget "u").name =
      (if stripSiteSuffix (jsTrim (textOfList
          (queryDoc (oneSel (SimpleSel.tagS "title")) pageTitleWidget))) ≠ ""
       then stripSiteSuffix (jsTrim (textOfList
          (queryDoc (oneSel (SimpleSel.tagS "title")) pageTitleWidget)))
       else "Unknown Product") ∧
    (extractProductInfo pageTitleWidget "u").price = "Price not available" ∧
    (extractProductInfo pageTitleWidget "u").description = "" ∧
    (extractProductInfo pageTitleWidget "u").features = [] ∧
    (extractProductInfo pageTitleWidget "u").specifications = [] :=
  parser_fallbacks pageTitleWidget "u" (by decide)

theorem addDlPairs_eq_zip :
    ∀ (terms defs : List HNode) (sp : List (String × String)),
      addDlPairs sp terms defs = (terms.zip defs).foldl addPairRef sp := by
  intro terms
  induction terms with
  | nil => intro defs sp; rfl
  | cons t ts ih =>
    intro defs sp
    cases defs with
    | nil =>
      show addDlPairs (if jsTrim (textOf t) ≠ "" ∧ jsTrim (firstText []) ≠ "" then _ else sp)
        ts ([].drop 1) = _
      rw [if_neg (fun hc => hc.2 (by decide))]
      rw [List.zip_nil_right]
      show addDlPairs sp ts [] = sp
      rw [ih [] sp, List.zip_nil_right]
      rfl
    | cons d ds =>
      show addDlPairs (if jsTrim (textOf t) ≠ "" ∧ jsTrim (firstText (d :: ds)) ≠ ""
          then specInsert sp (jsTrim (textOf t)) (jsTrim (firstText (d :: ds))) else sp)
        ts ((d :: ds).drop 1) = _
      rw [List.zip_cons_cons, List.foldl_cons]
      have hfd : firstText (d :: ds) = textOf d := rfl
      rw [hfd]
      simp only [List.drop_succ_cons, List.drop_zero]
      rw [ih ds]
      rfl

theorem dlPhase_eq_ref (root : HNode) :
    dlPhase root [] = dlSpecsRef root := by
  unfold dlPhase dlSpecsRef
  simp only [addDlPairs_eq_zip]

theorem specsGo_eq_ref (root : HNode) :
    ∀ (sels : List Sel),
      specsGo root sels [] =
        (match (sels.map (specFromSelector root)).find? (fun l => ¬ l.isEmpty) with
         | some l => l
         | none => dlSpecsRef root) := by
  intro sels
  induction sels with
  | nil =>
    show dlPhase root [] = _
    rw [dlPhase_eq_ref]
    rfl
  | cons sel rest ih =>
    by_cases hq : (queryDoc sel root).length > 0
    · show (if (queryDoc sel root).length > 0 then
          (if ((tableRows root sel).foldl addRow []).length > 0
           then (tableRows root sel).foldl addRow []
           else specsGo root rest ((tableRows root sel).foldl addRow []))
        else specsGo root rest []) = _
      rw [if_pos hq]
      have hsf : (tableRows root sel).foldl addRow [] = specFromSelector root sel := rfl
      by_cases hl : ((tableRows root sel).foldl addRow []).length > 0
      · rw [if_pos hl]
        rw [List.map_cons, List.find?_cons_of_pos]
        · rw [hsf]
        · rw [← hsf]
          simp only [decide_eq_true_eq, List.isEmpty_iff]
          intro hcon
          rw [hcon] at hl
          simp at hl
      · rw [if_neg hl]
        have hnil : (tableRows root sel).foldl addRow [] = [] := by
          cases hc : (tableRows root sel).foldl addRow [] with
          | nil => rfl
          | cons a l => rw [hc] at hl; simp at hl
        rw [hnil, ih, List.map_cons, List.find?_cons_of_neg]
        rw [← hsf, hnil]
        decide
    · show (if (queryDoc sel root).length > 0 then _ else specsGo root rest []) = _
      rw [if_neg hq]
      have hempty : queryDoc sel root = [] := by
        cases hc : queryDoc sel root with
        | nil => rfl
        | cons a l => rw [hc] at hq; simp at hq
      have hsf0 : specFromSelector root sel = [] := by
        unfold specFromSelector tableRows
        rw [hempty]
        rfl
      rw [ih, List.map_cons, List.find?_cons_of_neg]
      rw [hsf0]
      decide

/-- Claim C6:  Specification extraction equals the reference definition
transcribed from the claim — per table selector, each row's first two
cells give a key/value pair, rows with fewer than two cells or a blank
key or value are skipped, the first selector yielding at least one
entry returns immediately, and the `dt`/`dd` i-th-with-i-th pairing
fallback runs only when no table yielded an entry — and on the claim's
example table with rows `[("Key1","Val1"), ("",""), ("Key2","Val2")]`
it yields exactly `{Key1: Val1, Key2: Val2}`. -/
theorem specs_extraction_matches_ref :
    (∀ root : HNode, extractProductSpecifications root = extractSpecsRef root) ∧
    extractProductSpecifications exampleSpecDoc = [("Key1", "Val1"), ("Key2", "Val2")] := by
  constructor
  · intro root
    show specsGo root specTableSelectors [] = extractSpecsRef root
    unfold extractSpecsRef
    exact specsGo_eq_ref root specTableSelectors
  · decide

theorem specInsert_nonblank {sp : List (String × String)} {k v : String}
    (h : SpecsNonBlank sp) (hk : k ≠ "") (hv : v ≠ "") :
    SpecsNonBlank (specInsert sp k v) := by
  induction sp with
  | nil =>
    intro p hp
    rw [List.mem_singleton.mp hp]
    exact ⟨hk, hv⟩
  | cons q rest ih =>
    obtain ⟨k0, v0⟩ := q
    intro p hp
    unfold specInsert at hp
    split at hp
    next heq =>
      rcases List.mem_cons.mp hp with rfl | hp2
      · exact ⟨(h (k0, v0) (List.mem_cons_self _ _)).1, hv⟩
      · exact h p (List.mem_cons_of_mem _ hp2)
    next hne =>
      rcases List.mem_cons.mp hp with rfl | hp2
      · exact h _ (List.mem_cons_self _ _)
      · exact ih (fun q hq => h q (List.mem_cons_of_mem _ hq)) p hp2

theorem addRow_nonblank {sp : List (String × String)} (row : HNode)
    (h : SpecsNonBlank sp) : SpecsNonBlank (addRow sp row) := by
  unfold addRow
  split_ifs with c1 c2
  · exact specInsert_nonblank h c2.1 c2.2
  · exact h
  · exact h

theorem foldl_addRow_nonblank {sp : List (String × String)} :
    ∀ (rows : List HNode), SpecsNonBlank sp → SpecsNonBlank (rows.foldl addRow sp) := by
  intro rows
  induction rows generalizing sp with
  | nil => intro h; exact h
  | cons r rs ih =>
    intro h
    rw [List.foldl_cons]
    exact ih (addRow_nonblank r h)

theorem addDlPairs_nonblank :
    ∀ (terms defs : List HNode) (sp : List (String × String)),
      SpecsNonBlank sp → SpecsNonBlank (addDlPairs sp terms defs) := by
  intro terms
  induction terms with
  | nil => intro defs sp h; exact h
  | cons t ts ih =>
    intro defs sp h
    show SpecsNonBlank (addDlPairs
      (if jsTrim (textOf t) ≠ "" ∧ jsTrim (firstText defs) ≠ "" then _ else sp) ts (defs.drop 1))
    refine ih (defs.drop 1) _ ?_
    split_ifs with c
    · exact specInsert_nonblank h c.1 c.2
    · exact h

theorem dlPhase_nonblank (root : HNode) {sp : List (String × String)}
    (h : SpecsNonBlank sp) : SpecsNonBlank (dlPhase root sp) := by
  unfold dlPhase
  generalize (queryDoc (oneSel (SimpleSel.tagS "dl")) root) = ls
  induction ls generalizing sp with
  | nil => exact h
  | cons l ls2 ih =>
    rw [List.foldl_cons]
    exact ih (addDlPairs_nonblank _ _ _ h)

theorem specsGo_nonblank (root : HNode) :
    ∀ (sels : List Sel) (sp : List (String × String)),
      SpecsNonBlank sp → SpecsNonBlank (specsGo root sels sp) := by
  intro sels
  induction sels with
  | nil => intro sp h; exact dlPhase_nonblank root h
  | cons sel rest ih =>
    intro sp h
    show SpecsNonBlank (if (queryDoc sel root).length > 0 then
        (if ((tableRows root sel).foldl addRow sp).length > 0
         then (tableRows root sel).foldl addRow sp
         else specsGo root rest ((tableRows root sel).foldl addRow sp))
      else specsGo root rest sp)
    split_ifs with c1 c2
    · exact foldl_addRow_nonblank _ h
    · exact ih _ (foldl_addRow_nonblank _ h)
    · exact ih _ h

/-- Claim C10:  Every key and every value in the specifications
dictionary returned by specification extraction is a non-empty string:
both the table path and the term/definition fallback insert a pair only
when the trimmed key and the trimmed value are both non-empty. -/
theorem specs_values_nonblank (root : HNode) (k v : String)
    (h : (k, v) ∈ extractProductSpecifications root) : k ≠ "" ∧ v ≠ "" :=
  specsGo_nonblank root specTableSelectors [] (fun p hp => absurd hp (List.not_mem_nil p)) (k, v) h

/-- Claim C10 witness at the example specification table: the pair
`("Key1", "Val1")` is extracted, and both parts are non-empty. -/
theorem specs_values_nonblank_witness :
    ("Key1", "Val1") ∈ extractProductSpecifications exampleSpecDoc ∧
      ("Key1" ≠ "" ∧ "Val1" ≠ "") :=
  ⟨by decide, specs_values_nonblank exampleSpecDoc "Key1" "Val1" (by decide)⟩
